import Mathlib

/-!
Verification of the newsletter mailbox-monitor program (`src/main.rs`).

The development shallowly embeds the pure core of the program:
* UTF-8 byte accounting and the Discord description truncation
  (`run_monitor`, lines 91-99),
* the char-boundary backward search (lines 92-95),
* the whitespace normalisation `clean_body` (lines 147-157),
* the MIME body extraction `extract_body` (lines 159-181),
* the ignore-filter decision (lines 65-73),
* the per-message processing and per-cycle control flow of `run_monitor`
  (lines 41-145), with the IMAP session, the mail parser, the HTML-to-text
  converter and the webhook client supplied as oracle inputs.
-/

namespace Newsletter

/-! ### UTF-8 byte model (Rust `str::len`, `is_char_boundary`, slicing) -/

/-- Number of UTF-8 bytes of one character, as in Rust `char::len_utf8`. -/
def charBytes (c : Char) : Nat :=
  if c.toNat < 0x80 then 1
  else if c.toNat < 0x800 then 2
  else if c.toNat < 0x10000 then 3
  else 4

/-- UTF-8 byte length of a string given as its character list (Rust `str::len`). -/
def bytesLen : List Char → Nat
  | [] => 0
  | c :: r => charBytes c + bytesLen r

/-- Longest character prefix whose UTF-8 byte length fits the budget;
byte slicing `&s[..end]` at a character boundary `end` yields
`takeBytes end s`. -/
def takeBytes : Nat → List Char → List Char
  | _, [] => []
  | budget, c :: r => if charBytes c ≤ budget then c :: takeBytes (budget - charBytes c) r else []

/-- Rust `str::is_char_boundary`: the byte index is reachable by summing
whole-character byte sizes from the start. -/
def boundAux : List Char → Nat → Bool
  | _, 0 => true
  | [], _ + 1 => false
  | c :: r, n + 1 => if charBytes c ≤ n + 1 then boundAux r (n + 1 - charBytes c) else false

/-- The backward boundary search of `run_monitor` (lines 92-95):
`let mut end = e; while !is_char_boundary(end) { end -= 1 }`. -/
def findEnd (l : List Char) : Nat → Nat
  | 0 => 0
  | e + 1 => if boundAux l (e + 1) then e + 1 else findEnd l e

/-- The `display_body` computation of `run_monitor` (lines 91-99): truncate at
the char boundary found from byte index 1500 and append `"..."`, or keep the
body whole when its byte length is at most 1500. -/
def display_body (body : List Char) : List Char :=
  if 1500 < bytesLen body then
    takeBytes (findEnd body 1500) body ++ ('.' :: '.' :: '.' :: [])
  else body

/-- String-level wrapper of `display_body`. -/
def displayBody (s : String) : String := String.mk (display_body s.data)

/-! ### Whitespace normalisation (`clean_body`, lines 147-157) -/

/-- Horizontal whitespace of the regex class `[ \t]`. -/
def isHT (c : Char) : Bool := c == ' ' || c == '\t'

/-- The Unicode `White_Space` code points, as used by Rust `str::trim`. -/
def rustWS (c : Char) : Bool :=
  decide (c.toNat ∈ [0x09, 0x0A, 0x0B, 0x0C, 0x0D, 0x20, 0x85, 0xA0, 0x1680,
      0x2028, 0x2029, 0x202F, 0x205F, 0x3000] ∨
    (0x2000 ≤ c.toNat ∧ c.toNat ≤ 0x200A))

/-- `replace_all` of the regex `\n{3,}` by `"\n\n"`: of every maximal run of
newlines, keep at most the first two.  The counter is the number of
immediately preceding newlines already emitted. -/
def collapseAux : Nat → List Char → List Char
  | _, [] => []
  | k, c :: rest =>
    if c == '\n' then
      if 2 ≤ k then collapseAux k rest else '\n' :: collapseAux (k + 1) rest
    else c :: collapseAux 0 rest

/-- `replace_all` of the multiline regex `[ \t]+$` by `""`, applied to the
reversed string: after the (reversed) start or any newline, drop the run of
horizontal whitespace. -/
def stripRevAux : Bool → List Char → List Char
  | _, [] => []
  | skip, c :: rest =>
    if c == '\n' then '\n' :: stripRevAux true rest
    else if skip && isHT c then stripRevAux true rest
    else c :: stripRevAux false rest

/-- Strip trailing horizontal whitespace from every line (the `(?m)[ \t]+$`
replacement of `clean_body`). -/
def stripT (t : List Char) : List Char := (stripRevAux true t.reverse).reverse

/-- Rust `str::trim`: remove leading and trailing Unicode whitespace. -/
def trimChars (t : List Char) : List Char :=
  ((t.dropWhile rustWS).reverse.dropWhile rustWS).reverse

/-- `clean_body` (lines 147-157) over character lists: collapse newline runs,
strip per-line trailing blanks, trim the ends. -/
def cleanChars (t : List Char) : List Char := trimChars (stripT (collapseAux 0 t))

/-- `clean_body` of the source, on strings. -/
def clean_body (s : String) : String := String.mk (cleanChars s.data)

/-- Does the text contain three consecutive newlines right at the front? -/
def startsNN : List Char → Bool
  | c :: d :: _ => c == '\n' && d == '\n'
  | _ => false

/-- No run of three or more consecutive newlines anywhere. -/
def noTriple : List Char → Bool
  | [] => true
  | c :: rest => !(c == '\n' && startsNN rest) && noTriple rest

/-- In reversed orientation: no newline is immediately followed by
horizontal whitespace — i.e. in the original string no line carries
trailing blanks. -/
def okRev : List Char → Bool
  | [] => true
  | [_] => true
  | c :: d :: rest => !((c == '\n') && isHT d) && okRev (d :: rest)

/-- The head, if any, does not satisfy the predicate. -/
def headNotSat (p : Char → Bool) : List Char → Prop
  | [] => True
  | c :: _ => p c = false

/-! ### Ignore filter (`run_monitor`, lines 65-73) -/

/-- `pat` is a character-wise prefix of `hay`. -/
def startsWith : List Char → List Char → Bool
  | _, [] => true
  | [], _ :: _ => false
  | a :: as, b :: bs => a == b && startsWith as bs

/-- Rust `str::contains`: `pat` occurs contiguously inside `hay`. -/
def containsSub : List Char → List Char → Bool
  | [], pat => startsWith [] pat
  | a :: rest, pat => startsWith (a :: rest) pat || containsSub rest pat

/-- `String`-level substring containment, haystack first. -/
def strContains (hay pat : String) : Bool := containsSub hay.data pat.data

/-- The ignore decision of `run_monitor` (lines 65-73): any configured sender
substring inside the From header, or any configured subject substring inside
the Subject header; an absent list filters nothing. -/
def should_ignore (fromV subjectV : String)
    (senders subjects : Option (List String)) : Bool :=
  (match senders with
   | some ss => ss.any (fun s => strContains fromV s)
   | none => false) ||
  (match subjects with
   | some ss => ss.any (fun s => strContains subjectV s)
   | none => false)

/-! ### MIME tree and body extraction (`extract_body`, lines 159-181) -/

/-- A parsed MIME node: content type, decoded body when `get_body` succeeds
(`none` models a decode failure), and the ordered child parts. -/
inductive ParsedMail where
  | mk (mimetype : String) (body : Option String) (subparts : List ParsedMail)

mutual

/-- `extract_body` (lines 159-181): a plain-text node returns its cleaned
body (even when empty, or `none` on decode failure); otherwise the children
are tried in order and the first `some` wins; otherwise an HTML node returns
its cleaned conversion (`h2t` models `html2text::from_read`); otherwise
`none`. -/
def extract_body (h2t : String → Option String) : ParsedMail → Option String
  | .mk mt body subs =>
    if mt = "text/plain" then body.map clean_body
    else
      match extract_list h2t subs with
      | some r => some r
      | none =>
        if mt = "text/html" then
          match body with
          | some html =>
            match h2t html with
            | some md => some (clean_body md)
            | none => none
          | none => none
        else none

/-- The subpart loop of `extract_body` (lines 165-169): first `some` result,
in original order. -/
def extract_list (h2t : String → Option String) : List ParsedMail → Option String
  | [] => none
  | p :: ps =>
    match extract_body h2t p with
    | some r => some r
    | none => extract_list h2t ps

end

/-! ### Per-message processing and the cycle (`run_monitor`, lines 41-145) -/

/-- The configuration structure of the program. -/
structure Config where
  imap_server : String
  imap_port : Nat
  imap_username : String
  imap_password : String
  discord_webhook_url : String
  ignored_senders : Option (List String)
  ignored_subjects : Option (List String)

/-- What `mailparse::parse_mail` yields: the two headers read through
`get_first_value`, and the MIME tree. -/
structure Mail where
  subjectH : Option String
  fromH : Option String
  tree : ParsedMail

/-- Outcome of the webhook POST: `ok b` is an HTTP response with
`b = is_success()`, `err` a transport error. -/
inductive SendRes where
  | ok (success : Bool)
  | err
deriving DecidableEq

/-- One fetched message; `body` is `msg.body()`, which may be absent. -/
structure FetchedMsg where
  body : Option (List Nat)

/-- The external outcomes driving the processing of one sequence number:
the IMAP fetch (session error / empty result / a message), the webhook
response, and the IMAP store of the `\Deleted` flag. -/
structure MsgEnv where
  fetchRes : Except Unit (Option FetchedMsg)
  sendRes : SendRes
  storeRes : Except Unit Unit

/-- Observable outcome of processing one message. -/
structure MsgOut where
  ignored : Bool
  posted : Bool
  deleted : Bool
  description : Option String
deriving DecidableEq

/-- The body of the per-message loop of `run_monitor` (lines 53-136): fetch,
parse, classify, and either delete (ignored), or extract, format and POST,
deleting exactly on a 2xx response.  `Except.error` is a session-level
error propagated by `?`. -/
def processMsg (parse : List Nat → Except Unit Mail) (h2t : String → Option String)
    (cfg : Config) (env : MsgEnv) : Except Unit MsgOut :=
  match env.fetchRes with
  | .error e => .error e
  | .ok none => .ok ⟨false, false, false, none⟩
  | .ok (some m) =>
    match parse (m.body.getD []) with
    | .error e => .error e
    | .ok mail =>
      let subject := mail.subjectH.getD "No Subject"
      let fromV := mail.fromH.getD "Unknown Sender"
      if should_ignore fromV subject cfg.ignored_senders cfg.ignored_subjects then
        match env.storeRes with
        | .error e => .error e
        | .ok _ => .ok ⟨true, false, true, none⟩
      else
        let body_content := (extract_body h2t mail.tree).getD "Cannot parse body"
        let dsp := displayBody body_content
        match env.sendRes with
        | .ok true =>
          match env.storeRes with
          | .error e => .error e
          | .ok _ => .ok ⟨false, true, true, some dsp⟩
        | .ok false => .ok ⟨false, true, false, some dsp⟩
        | .err => .ok ⟨false, true, false, some dsp⟩

/-- One polling cycle over the listed messages: a session-level error from
any message aborts the whole cycle (the `?` operators of lines 55, 59, 83,
126). -/
def runCycle (parse : List Nat → Except Unit Mail) (h2t : String → Option String)
    (cfg : Config) : List MsgEnv → Except Unit (List MsgOut)
  | [] => .ok []
  | e :: es =>
    match processMsg parse h2t cfg e with
    | .error x => .error x
    | .ok out =>
      match runCycle parse h2t cfg es with
      | .error x => .error x
      | .ok outs => .ok (out :: outs)

/-! ### Concrete sample instances -/

/-- A parser oracle yielding a fixed plain-text mail. -/
def parse0 : List Nat → Except Unit Mail :=
  fun _ => .ok ⟨some "Hi", some "a@b.com", .mk "text/plain" (some "hello") []⟩

/-- A parser oracle yielding a fixed HTML-only mail whose conversion fails. -/
def parseHtml : List Nat → Except Unit Mail :=
  fun _ => .ok ⟨some "Hi", some "a@b.com", .mk "text/html" (some "<p>x</p>") []⟩

/-- A parser oracle yielding a mail whose plain part cleans to the empty
string. -/
def parseBlank : List Nat → Except Unit Mail :=
  fun _ => .ok ⟨some "Hi", some "a@b.com",
    .mk "multipart/alternative" none
      [.mk "text/plain" (some " ") [], .mk "text/html" (some "<p>x</p>") []]⟩

/-- A parser oracle that always fails (`mailparse::parse_mail` error). -/
def parseFail : List Nat → Except Unit Mail := fun _ => .error ()

/-- An HTML-to-text oracle that always fails. -/
def h2t0 : String → Option String := fun _ => none

/-- An HTML-to-text oracle returning a fixed rendering. -/
def h2tH : String → Option String := fun _ => some "H"

/-- A configuration with no ignore lists. -/
def cfg0 : Config :=
  ⟨"imap.example.org", 993, "user", "pw", "https://example.org/webhook", none, none⟩

/-- A configuration whose sender ignore list matches the mail of `parse0`. -/
def cfgIg : Config :=
  ⟨"imap.example.org", 993, "user", "pw", "https://example.org/webhook",
    some ["a@b.com"], some []⟩

/-- Fetch, delivery and store all succeed. -/
def goodEnv : MsgEnv := ⟨.ok (some ⟨some []⟩), .ok true, .ok ()⟩

/-- Delivery returns a non-success status. -/
def badStatusEnv : MsgEnv := ⟨.ok (some ⟨some []⟩), .ok false, .ok ()⟩

/-- The IMAP fetch fails at the session level. -/
def fetchErrEnv : MsgEnv := ⟨.error (), .ok true, .ok ()⟩

/-! ### Filter lemmas -/

theorem startsWith_iff (pat hay : List Char) : startsWith hay pat = true ↔ pat <+: hay := by
  induction pat generalizing hay with
  | nil => simp [startsWith]
  | cons b bs ih =>
    cases hay with
    | nil => simp [startsWith]
    | cons a as =>
      show (a == b && startsWith as bs) = true ↔ _
      rw [List.cons_prefix_cons, Bool.and_eq_true, beq_iff_eq, ih, eq_comm]

theorem containsSub_iff (hay pat : List Char) : containsSub hay pat = true ↔ pat <:+: hay := by
  induction hay with
  | nil =>
    cases pat <;> simp [containsSub, startsWith]
  | cons a rest ih =>
    simp [containsSub, Bool.or_eq_true, startsWith_iff, ih, List.infix_cons_iff]

/-- C4: the ignore decision is exactly "some configured sender substring
occurs in the From header, or some configured subject substring occurs in
the Subject header", case-sensitively; an absent list filters nothing, and
with absent or empty lists nothing is ignored.  The worked example of the
spec holds. -/
theorem c4_filter_semantics :
    (∀ f sub se su, should_ignore f sub se su = true ↔
      ((∃ s ∈ se.getD [], s.data <:+: f.data) ∨ (∃ s ∈ su.getD [], s.data <:+: sub.data))) ∧
    should_ignore "Newsletter <spam@x.com>" "Weekly Deals" (some ["spam@x.com"]) (some []) = true ∧
    should_ignore "Newsletter <spam@x.com>" "Weekly Deals" (some []) (some []) = false ∧
    (∀ f sub, should_ignore f sub (some []) (some []) = false) ∧
    (∀ f sub, should_ignore f sub none none = false) := by
  refine ⟨?_, by decide, by decide, ?_, ?_⟩
  · intro f sub se su
    cases se <;> cases su <;>
      simp [should_ignore, strContains, containsSub_iff, List.any_eq_true]
  · intro f sub; rfl
  · intro f sub; rfl

/-! ### Per-message control-flow characterisation -/

/-- A complete case analysis of the successful runs of `processMsg`. -/
theorem processMsg_ok_cases (parse : List Nat → Except Unit Mail) (h2t : String → Option String)
    (cfg : Config) (env : MsgEnv) (out : MsgOut)
    (h : processMsg parse h2t cfg env = .ok out) :
    (env.fetchRes = .ok none ∧ out = ⟨false, false, false, none⟩) ∨
    (∃ m mail, env.fetchRes = .ok (some m) ∧ parse (m.body.getD []) = .ok mail ∧
      ((should_ignore (mail.fromH.getD "Unknown Sender") (mail.subjectH.getD "No Subject")
          cfg.ignored_senders cfg.ignored_subjects = true ∧
        env.storeRes = .ok () ∧ out = ⟨true, false, true, none⟩) ∨
       (should_ignore (mail.fromH.getD "Unknown Sender") (mail.subjectH.getD "No Subject")
          cfg.ignored_senders cfg.ignored_subjects = false ∧
        ((env.sendRes = .ok true ∧ env.storeRes = .ok () ∧
            out = ⟨false, true, true,
              some (displayBody ((extract_body h2t mail.tree).getD "Cannot parse body"))⟩) ∨
         (env.sendRes = .ok false ∧
            out = ⟨false, true, false,
              some (displayBody ((extract_body h2t mail.tree).getD "Cannot parse body"))⟩) ∨
         (env.sendRes = .err ∧
            out = ⟨false, true, false,
              some (displayBody ((extract_body h2t mail.tree).getD "Cannot parse body"))⟩))))) := by
  obtain ⟨fr, sr, st⟩ := env
  simp only [processMsg] at h
  cases fr with
  | error e => exact absurd h (by simp)
  | ok o =>
    cases o with
    | none =>
      dsimp only at h
      exact Or.inl ⟨rfl, (Except.ok.inj h).symm⟩
    | some m =>
      dsimp only at h
      cases hp : parse (m.body.getD []) with
      | error e => rw [hp] at h; exact absurd h (by simp)
      | ok mail =>
        rw [hp] at h
        dsimp only at h
        refine Or.inr ⟨m, mail, rfl, hp, ?_⟩
        split at h
        next hig =>
          cases st with
          | error e => exact absurd h (by simp)
          | ok u =>
            cases u
            exact Or.inl ⟨hig, rfl, (Except.ok.inj h).symm⟩
        next hig =>
          have hig2 : should_ignore (mail.fromH.getD "Unknown Sender")
              (mail.subjectH.getD "No Subject")
              cfg.ignored_senders cfg.ignored_subjects = false := by
            revert hig
            cases should_ignore (mail.fromH.getD "Unknown Sender")
              (mail.subjectH.getD "No Subject")
              cfg.ignored_senders cfg.ignored_subjects <;> simp
          refine Or.inr ⟨hig2, ?_⟩
          cases sr with
          | ok b =>
            cases b with
            | true =>
              cases st with
              | error e => exact absurd h (by simp)
              | ok u =>
                cases u
                exact Or.inl ⟨rfl, rfl, (Except.ok.inj h).symm⟩
            | false =>
              exact Or.inr (Or.inl ⟨rfl, (Except.ok.inj h).symm⟩)
          | err =>
            exact Or.inr (Or.inr ⟨rfl, (Except.ok.inj h).symm⟩)

/-- C1: a successfully processed message is marked deleted exactly when it
was classified as ignored or its webhook POST got a 2xx response; a
transport error or non-success status leaves it unmarked (so expunge does
not remove it and it is seen again next cycle). -/
theorem c1_delete_iff_delivery (parse : List Nat → Except Unit Mail)
    (h2t : String → Option String) (cfg : Config) (env : MsgEnv) (out : MsgOut)
    (h : processMsg parse h2t cfg env = .ok out) :
    (out.deleted = true ↔
      (out.ignored = true ∨ (out.posted = true ∧ env.sendRes = SendRes.ok true))) ∧
    (out.posted = true → env.sendRes ≠ SendRes.ok true → out.deleted = false) := by
  rcases processMsg_ok_cases parse h2t cfg env out h with ⟨hf, rfl⟩ | ⟨m, mail, hf, hp, hcase⟩
  · simp
  · rcases hcase with ⟨hig, hst, rfl⟩ | ⟨hig, hrest⟩
    · simp
    · rcases hrest with ⟨hs, hst, rfl⟩ | ⟨hs, rfl⟩ | ⟨hs, rfl⟩ <;> simp [hs]

/-- Witness for C1 at a concrete non-success delivery. -/
theorem c1_witness :
    processMsg parse0 h2t0 cfg0 badStatusEnv = .ok ⟨false, true, false, some "hello"⟩ ∧
    (((⟨false, true, false, some "hello"⟩ : MsgOut).deleted = true ↔
      ((⟨false, true, false, some "hello"⟩ : MsgOut).ignored = true ∨
        ((⟨false, true, false, some "hello"⟩ : MsgOut).posted = true ∧
          badStatusEnv.sendRes = SendRes.ok true))) ∧
      ((⟨false, true, false, some "hello"⟩ : MsgOut).posted = true →
        badStatusEnv.sendRes ≠ SendRes.ok true →
        (⟨false, true, false, some "hello"⟩ : MsgOut).deleted = false)) :=
  ⟨rfl, c1_delete_iff_delivery parse0 h2t0 cfg0 badStatusEnv _ rfl⟩

/-- C2: an ignored message is deleted and the webhook client is never
invoked for it. -/
theorem c2_ignored_no_post (parse : List Nat → Except Unit Mail)
    (h2t : String → Option String) (cfg : Config) (env : MsgEnv) (out : MsgOut)
    (m : FetchedMsg) (mail : Mail)
    (hf : env.fetchRes = .ok (some m))
    (hp : parse (m.body.getD []) = .ok mail)
    (hig : should_ignore (mail.fromH.getD "Unknown Sender") (mail.subjectH.getD "No Subject")
      cfg.ignored_senders cfg.ignored_subjects = true)
    (h : processMsg parse h2t cfg env = .ok out) :
    out.deleted = true ∧ out.posted = false := by
  rcases processMsg_ok_cases parse h2t cfg env out h with ⟨hf2, rfl⟩ | ⟨m2, mail2, hf2, hp2, hcase⟩
  · rw [hf] at hf2; simp at hf2
  · rw [hf] at hf2
    simp only [Except.ok.injEq, Option.some.injEq] at hf2
    subst hf2
    rw [hp] at hp2
    simp only [Except.ok.injEq] at hp2
    subst hp2
    rcases hcase with ⟨_, _, rfl⟩ | ⟨hig2, _⟩
    · exact ⟨rfl, rfl⟩
    · exact absurd (hig.symm.trans hig2) (by decide)

/-- Witness for C2 at a concrete ignored message. -/
theorem c2_witness :
    goodEnv.fetchRes = .ok (some ⟨some []⟩) ∧
    parse0 ((⟨some []⟩ : FetchedMsg).body.getD []) =
      .ok ⟨some "Hi", some "a@b.com", .mk "text/plain" (some "hello") []⟩ ∧
    should_ignore "a@b.com" "Hi" cfgIg.ignored_senders cfgIg.ignored_subjects = true ∧
    processMsg parse0 h2t0 cfgIg goodEnv = .ok ⟨true, false, true, none⟩ ∧
    ((⟨true, false, true, none⟩ : MsgOut).deleted = true ∧
      (⟨true, false, true, none⟩ : MsgOut).posted = false) :=
  ⟨rfl, rfl, by decide, rfl,
    c2_ignored_no_post parse0 h2t0 cfgIg goodEnv _ ⟨some []⟩
      ⟨some "Hi", some "a@b.com", .mk "text/plain" (some "hello") []⟩
      rfl rfl (by decide) rfl⟩

/-- C3 counterexample: a fetch failure on the first message aborts the whole
cycle (and a parse failure does too), even though the remaining message
would have processed fine on its own. -/
theorem c3_counterexample :
    runCycle parse0 h2t0 cfg0 [fetchErrEnv, goodEnv] = .error () ∧
    runCycle parseFail h2t0 cfg0 [goodEnv, goodEnv] = .error () ∧
    processMsg parse0 h2t0 cfg0 goodEnv = .ok ⟨false, true, true, some "hello"⟩ := by
  refine ⟨rfl, rfl, rfl⟩

/-- C3 amended: a fetch or parse failure on one message is session-scoped,
not message-scoped: it aborts the cycle, leaving the remaining messages for
the next session; only an empty fetch result is skipped at message
granularity. -/
theorem c3_session_abort (parse : List Nat → Except Unit Mail)
    (h2t : String → Option String) (cfg : Config) (env : MsgEnv) (rest : List MsgEnv) :
    (env.fetchRes = .error () → runCycle parse h2t cfg (env :: rest) = .error ()) ∧
    (∀ m, env.fetchRes = .ok (some m) → parse (m.body.getD []) = .error () →
      runCycle parse h2t cfg (env :: rest) = .error ()) ∧
    (env.fetchRes = .ok none →
      runCycle parse h2t cfg (env :: rest) =
        (runCycle parse h2t cfg rest).map (fun outs => ⟨false, false, false, none⟩ :: outs)) := by
  refine ⟨?_, ?_, ?_⟩
  · intro hf
    simp only [runCycle, processMsg, hf]
  · intro m hf hp
    simp only [runCycle, processMsg, hf, hp]
  · intro hf
    simp only [runCycle, processMsg, hf]
    cases runCycle parse h2t cfg rest <;> simp [Except.map]

/-- Witness for the amended C3 at a concrete failing fetch. -/
theorem c3_witness :
    fetchErrEnv.fetchRes = .error () ∧
    runCycle parse0 h2t0 cfg0 [fetchErrEnv] = .error () :=
  ⟨rfl, (c3_session_abort parse0 h2t0 cfg0 fetchErrEnv []).1 rfl⟩

/-! ### Extraction lemmas -/

/-- A plain-text node returns its cleaned body, ignoring subparts. -/
theorem eb_plain (h2t : String → Option String) (b : String) (subs : List ParsedMail) :
    extract_body h2t (.mk "text/plain" (some b) subs) = some (clean_body b) := by
  simp [extract_body]

/-- A plain-text node whose decoding failed returns `none` outright. -/
theorem eb_plain_fail (h2t : String → Option String) (subs : List ParsedMail) :
    extract_body h2t (.mk "text/plain" none subs) = none := by
  simp [extract_body]

/-- On a non-plain node, a successful first child decides the result. -/
theorem eb_cons_some (h2t : String → Option String) (mt : String) (bo : Option String)
    (p : ParsedMail) (ps : List ParsedMail) (r : String)
    (hmt : mt ≠ "text/plain") (hp : extract_body h2t p = some r) :
    extract_body h2t (.mk mt bo (p :: ps)) = some r := by
  simp [extract_body, extract_list, hmt, hp]

/-- On a non-plain node, a failed first child is skipped. -/
theorem eb_cons_none (h2t : String → Option String) (mt : String) (bo : Option String)
    (p : ParsedMail) (ps : List ParsedMail)
    (hmt : mt ≠ "text/plain") (hp : extract_body h2t p = none) :
    extract_body h2t (.mk mt bo (p :: ps)) = extract_body h2t (.mk mt bo ps) := by
  simp [extract_body, extract_list, hmt, hp]

/-- On an HTML node with no successful child, a failed conversion yields
`none` (no error is propagated). -/
theorem eb_html_fail (h2t : String → Option String) (b : String) (subs : List ParsedMail)
    (hh : h2t b = none) (hl : extract_list h2t subs = none) :
    extract_body h2t (.mk "text/html" (some b) subs) = none := by
  simp [extract_body, hl, hh]

/-- C5 counterexample: the subpart loop returns the first `some` result even
when it is empty (not the first non-empty one), and an HTML part placed
before a plain-text part wins, so extraction does not always prefer the
plain-text content. -/
theorem c5_counterexample :
    extract_body h2tH
      (.mk "multipart/alternative" none
        [.mk "text/plain" (some "") [], .mk "text/plain" (some "x") []]) = some "" ∧
    (some "" : Option String) ≠ some "x" ∧
    extract_body h2tH
      (.mk "multipart/alternative" none
        [.mk "text/html" (some "<p>x</p>") [], .mk "text/plain" (some "x") []]) = some "H" ∧
    (some "H" : Option String) ≠ some "x" := by
  refine ⟨by decide, by decide, by decide, by decide⟩

/-- C5 amended: a plain-text node returns its own normalized decoded body;
otherwise the children are tried in their original order and the first
successful (`some`) result — possibly empty, possibly the conversion of an
HTML child — is returned; in particular when a plain-text part comes first
(the conventional multipart/alternative order) its content wins. -/
theorem c5_extract_order :
    (∀ (h2t : String → Option String) (b : String) (subs : List ParsedMail),
      extract_body h2t (.mk "text/plain" (some b) subs) = some (clean_body b)) ∧
    (∀ (h2t : String → Option String) (mt : String) (bo : Option String)
        (p : ParsedMail) (ps : List ParsedMail) (r : String),
      mt ≠ "text/plain" → extract_body h2t p = some r →
      extract_body h2t (.mk mt bo (p :: ps)) = some r) ∧
    (∀ (h2t : String → Option String) (mt : String) (bo : Option String)
        (p : ParsedMail) (ps : List ParsedMail),
      mt ≠ "text/plain" → extract_body h2t p = none →
      extract_body h2t (.mk mt bo (p :: ps)) = extract_body h2t (.mk mt bo ps)) ∧
    (∀ (h2t : String → Option String) (mt : String) (bo : Option String)
        (pb : String) (rest : List ParsedMail),
      mt ≠ "text/plain" →
      extract_body h2t (.mk mt bo (.mk "text/plain" (some pb) [] :: rest)) =
        some (clean_body pb)) :=
  ⟨eb_plain, eb_cons_some, eb_cons_none,
    fun h2t mt bo pb rest hmt => eb_cons_some h2t mt bo _ rest _ hmt (eb_plain h2t pb [])⟩

/-- Witness for the amended C5: plain-before-HTML multipart. -/
theorem c5_witness :
    ("multipart/alternative" ≠ "text/plain") ∧
    extract_body h2tH
      (.mk "multipart/alternative" none
        [.mk "text/plain" (some "x") [], .mk "text/html" (some "<p>x</p>") []]) =
      some (clean_body "x") :=
  ⟨by decide,
    c5_extract_order.2.2.2 h2tH "multipart/alternative" none "x"
      [.mk "text/html" (some "<p>x</p>") []] (by decide)⟩

/-- C8: a failed HTML-to-text conversion yields `none` instead of an error,
and when extraction yields `none` for the whole message the caller posts the
fixed fallback body instead of failing. -/
theorem c8_html_fallback :
    (∀ (h2t : String → Option String) (b : String) (subs : List ParsedMail),
      h2t b = none → extract_list h2t subs = none →
      extract_body h2t (.mk "text/html" (some b) subs) = none) ∧
    (∀ (parse : List Nat → Except Unit Mail) (h2t : String → Option String)
        (cfg : Config) (env : MsgEnv) (out : MsgOut) (m : FetchedMsg) (mail : Mail),
      env.fetchRes = .ok (some m) →
      parse (m.body.getD []) = .ok mail →
      extract_body h2t mail.tree = none →
      processMsg parse h2t cfg env = .ok out →
      out.posted = true →
      out.description = some "Cannot parse body") := by
  refine ⟨eb_html_fail, ?_⟩
  intro parse h2t cfg env out m mail hf hp hex h hpost
  rcases processMsg_ok_cases parse h2t cfg env out h with ⟨hf2, rfl⟩ | ⟨m2, mail2, hf2, hp2, hcase⟩
  · exact absurd hpost (by decide)
  · rw [hf] at hf2
    simp only [Except.ok.injEq, Option.some.injEq] at hf2
    subst hf2
    rw [hp] at hp2
    simp only [Except.ok.injEq] at hp2
    subst hp2
    rcases hcase with ⟨_, _, rfl⟩ | ⟨_, hrest⟩
    · exact absurd hpost (by decide)
    · rcases hrest with ⟨_, _, rfl⟩ | ⟨_, rfl⟩ | ⟨_, rfl⟩ <;>
        · show some (displayBody ((extract_body h2t mail.tree).getD "Cannot parse body")) = _
          rw [hex]
          rfl

/-- Witness for C8: HTML-only mail whose conversion fails; the fallback body
is posted. -/
theorem c8_witness :
    goodEnv.fetchRes = .ok (some ⟨some []⟩) ∧
    parseHtml ((⟨some []⟩ : FetchedMsg).body.getD []) =
      .ok ⟨some "Hi", some "a@b.com", .mk "text/html" (some "<p>x</p>") []⟩ ∧
    extract_body h2t0 (ParsedMail.mk "text/html" (some "<p>x</p>") []) = none ∧
    processMsg parseHtml h2t0 cfg0 goodEnv =
      .ok ⟨false, true, true, some "Cannot parse body"⟩ ∧
    (⟨false, true, true, some "Cannot parse body"⟩ : MsgOut).description =
      some "Cannot parse body" :=
  ⟨rfl, rfl, by decide, rfl,
    c8_html_fallback.2 parseHtml h2t0 cfg0 goodEnv _ ⟨some []⟩
      ⟨some "Hi", some "a@b.com", .mk "text/html" (some "<p>x</p>") []⟩
      rfl rfl (by decide) rfl (by decide)⟩

/-- C10: an empty extracted string is a success: the first plain-text part
found decides the result even when it cleans to the empty string — later
siblings and the HTML fallback are never consulted (they are arbitrary
here) — and the caller then posts the empty description, not the fallback
placeholder. -/
theorem c10_empty_success :
    (∀ (h2t : String → Option String) (mt : String) (bo : Option String)
        (ps : List ParsedMail) (s : String),
      mt ≠ "text/plain" → clean_body s = "" →
      extract_body h2t (.mk mt bo (.mk "text/plain" (some s) [] :: ps)) = some "") ∧
    (∀ (parse : List Nat → Except Unit Mail) (h2t : String → Option String)
        (cfg : Config) (env : MsgEnv) (out : MsgOut) (m : FetchedMsg) (mail : Mail),
      env.fetchRes = .ok (some m) →
      parse (m.body.getD []) = .ok mail →
      extract_body h2t mail.tree = some "" →
      processMsg parse h2t cfg env = .ok out →
      out.posted = true →
      out.description = some "" ∧ out.description ≠ some "Cannot parse body") := by
  constructor
  · intro h2t mt bo ps s hmt hs
    have := eb_cons_some h2t mt bo (.mk "text/plain" (some s) []) ps (clean_body s) hmt
      (eb_plain h2t s [])
    rwa [hs] at this
  · intro parse h2t cfg env out m mail hf hp hex h hpost
    rcases processMsg_ok_cases parse h2t cfg env out h with ⟨hf2, rfl⟩ | ⟨m2, mail2, hf2, hp2, hcase⟩
    · exact absurd hpost (by decide)
    · rw [hf] at hf2
      simp only [Except.ok.injEq, Option.some.injEq] at hf2
      subst hf2
      rw [hp] at hp2
      simp only [Except.ok.injEq] at hp2
      subst hp2
      rcases hcase with ⟨_, _, rfl⟩ | ⟨_, hrest⟩
      · exact absurd hpost (by decide)
      · rcases hrest with ⟨_, _, rfl⟩ | ⟨_, rfl⟩ | ⟨_, rfl⟩ <;>
          · show some (displayBody ((extract_body h2t mail.tree).getD "Cannot parse body")) =
                some "" ∧ _
            rw [hex]
            exact ⟨rfl, by decide⟩

/-- Witness for C10: a multipart whose first plain part cleans to the empty
string; the empty description is posted. -/
theorem c10_witness :
    ("multipart/alternative" ≠ "text/plain") ∧ clean_body " " = "" ∧
    goodEnv.fetchRes = .ok (some ⟨some []⟩) ∧
    parseBlank ((⟨some []⟩ : FetchedMsg).body.getD []) =
      .ok ⟨some "Hi", some "a@b.com",
        .mk "multipart/alternative" none
          [.mk "text/plain" (some " ") [], .mk "text/html" (some "<p>x</p>") []]⟩ ∧
    extract_body h2tH
      (ParsedMail.mk "multipart/alternative" none
        [.mk "text/plain" (some " ") [], .mk "text/html" (some "<p>x</p>") []]) = some "" ∧
    processMsg parseBlank h2tH cfg0 goodEnv = .ok ⟨false, true, true, some ""⟩ ∧
    ((⟨false, true, true, some ""⟩ : MsgOut).description = some "" ∧
      (⟨false, true, true, some ""⟩ : MsgOut).description ≠ some "Cannot parse body") :=
  ⟨by decide, by decide, rfl, rfl, by decide, rfl,
    c10_empty_success.2 parseBlank h2tH cfg0 goodEnv _ ⟨some []⟩
      ⟨some "Hi", some "a@b.com",
        .mk "multipart/alternative" none
          [.mk "text/plain" (some " ") [], .mk "text/html" (some "<p>x</p>") []]⟩
      rfl rfl (by decide) rfl (by decide)⟩

/-! ### Byte-length and boundary lemmas -/

theorem charBytes_pos (c : Char) : 1 ≤ charBytes c := by
  unfold charBytes
  split
  · exact Nat.le_refl 1
  · split
    · omega
    · split <;> omega

theorem tb_take (e : Nat) (l : List Char) :
    takeBytes e l = l.take (takeBytes e l).length := by
  induction l generalizing e with
  | nil => rfl
  | cons c r ih =>
    by_cases hc : charBytes c ≤ e
    · simp only [takeBytes, if_pos hc, List.length_cons, List.take_succ_cons]
      exact congrArg (c :: ·) (ih (e - charBytes c))
    · simp [takeBytes, if_neg hc]

theorem tb_len_le (e : Nat) (l : List Char) : (takeBytes e l).length ≤ l.length := by
  induction l generalizing e with
  | nil => exact Nat.le_refl 0
  | cons c r ih =>
    by_cases hc : charBytes c ≤ e
    · simpa [takeBytes, if_pos hc] using ih (e - charBytes c)
    · simp [takeBytes, if_neg hc]

theorem tb_bytes_le (e : Nat) (l : List Char) : bytesLen (takeBytes e l) ≤ e := by
  induction l generalizing e with
  | nil => exact Nat.zero_le e
  | cons c r ih =>
    by_cases hc : charBytes c ≤ e
    · have := ih (e - charBytes c)
      simp only [takeBytes, if_pos hc, bytesLen]
      omega
    · simp [takeBytes, if_neg hc, bytesLen]

theorem tb_max (e : Nat) (l : List Char) (j : Nat) (hj : j ≤ l.length)
    (hb : bytesLen (l.take j) ≤ e) : j ≤ (takeBytes e l).length := by
  induction l generalizing e j with
  | nil =>
    have : j = 0 := by simpa using hj
    subst this
    exact Nat.zero_le _
  | cons c r ih =>
    cases j with
    | zero => exact Nat.zero_le _
    | succ j =>
      simp only [List.take_succ_cons, bytesLen] at hb
      have hc : charBytes c ≤ e := by omega
      simp only [takeBytes, if_pos hc, List.length_cons]
      have := ih (e - charBytes c) j (by simpa using hj) (by omega)
      omega

theorem tb_next_over (e : Nat) (l : List Char)
    (h : (takeBytes e l).length < l.length) :
    e < bytesLen (l.take ((takeBytes e l).length + 1)) := by
  induction l generalizing e with
  | nil => simp at h
  | cons c r ih =>
    by_cases hc : charBytes c ≤ e
    · simp only [takeBytes, if_pos hc, List.length_cons, List.length_cons] at h ⊢
      have hlt : (takeBytes (e - charBytes c) r).length < r.length := by omega
      have := ih (e - charBytes c) hlt
      simp only [List.take_succ_cons, bytesLen]
      omega
    · simp only [takeBytes, if_neg hc, List.length_nil, List.take_succ_cons,
        List.take_zero, bytesLen]
      omega

theorem bl_take_mono (l : List Char) (j k : Nat) (h : j ≤ k) :
    bytesLen (l.take j) ≤ bytesLen (l.take k) := by
  induction l generalizing j k with
  | nil => simp
  | cons c r ih =>
    cases k with
    | zero =>
      have : j = 0 := by omega
      subst this; exact Nat.le_refl _
    | succ k =>
      cases j with
      | zero => simp [bytesLen]
      | succ j =>
        simp only [List.take_succ_cons, bytesLen]
        have := ih j k (by omega)
        omega

theorem boundAux_zero (l : List Char) : boundAux l 0 = true := by
  cases l <;> rfl

theorem bound_iff (l : List Char) (n : Nat) :
    boundAux l n = true ↔ ∃ k, k ≤ l.length ∧ bytesLen (l.take k) = n := by
  induction l generalizing n with
  | nil =>
    cases n with
    | zero => simp [boundAux, bytesLen]
    | succ n => simp [boundAux, bytesLen]
  | cons c r ih =>
    cases n with
    | zero =>
      rw [boundAux_zero]
      constructor
      · intro _
        exact ⟨0, Nat.zero_le _, rfl⟩
      · intro _
        rfl
    | succ n =>
      by_cases hc : charBytes c ≤ n + 1
      · simp only [boundAux, if_pos hc, ih]
        constructor
        · rintro ⟨k, hk, hbk⟩
          exact ⟨k + 1, by simpa using hk, by simp only [List.take_succ_cons, bytesLen]; omega⟩
        · rintro ⟨k, hk, hbk⟩
          cases k with
          | zero => simp [bytesLen] at hbk
          | succ k =>
            simp only [List.take_succ_cons, bytesLen] at hbk
            exact ⟨k, by simpa using hk, by omega⟩
      · simp only [boundAux, if_neg hc]
        constructor
        · intro hcontr
          exact absurd hcontr (by decide)
        · rintro ⟨k, hk, hbk⟩
          cases k with
          | zero => simp [bytesLen] at hbk
          | succ k =>
            simp only [List.take_succ_cons, bytesLen] at hbk
            exact absurd hbk (by omega)

theorem bound_le_bytes (l : List Char) (n : Nat) (h : boundAux l n = true) :
    n ≤ bytesLen l := by
  obtain ⟨k, hk, hbk⟩ := (bound_iff l n).mp h
  calc n = bytesLen (l.take k) := hbk.symm
    _ ≤ bytesLen (l.take l.length) := bl_take_mono l k l.length hk
    _ = bytesLen l := by rw [List.take_length]

theorem findEnd_le (l : List Char) (e : Nat) : findEnd l e ≤ e := by
  induction e with
  | zero => exact Nat.le_refl 0
  | succ e ih =>
    simp only [findEnd]
    split
    · exact Nat.le_refl _
    · omega

theorem findEnd_bound (l : List Char) (e : Nat) : boundAux l (findEnd l e) = true := by
  induction e with
  | zero => exact boundAux_zero l
  | succ e ih =>
    simp only [findEnd]
    split
    · assumption
    · exact ih

theorem findEnd_spec (l : List Char) (b e : Nat) (hb : boundAux l b = true) (hle : b ≤ e)
    (hmax : ∀ v, b < v → v ≤ e → boundAux l v = false) : findEnd l e = b := by
  induction e with
  | zero =>
    have h0 : findEnd l 0 = 0 := rfl
    omega
  | succ e ih =>
    by_cases h : boundAux l (e + 1) = true
    · have hbe : b = e + 1 := by
        by_contra hne
        have : b < e + 1 := by omega
        exact absurd h (by simp [hmax (e + 1) this (Nat.le_refl _)])
      simp [findEnd, h, hbe]
    · have hb' : b ≤ e := by
        rcases Nat.lt_or_ge b (e + 1) with h1 | h1
        · omega
        · have : b = e + 1 := by omega
          rw [this] at hb; exact absurd hb h
      have := ih hb' (fun v hv1 hv2 => hmax v hv1 (by omega))
      simpa [findEnd, h] using this

theorem tb_restrict (e : Nat) (l : List Char) :
    takeBytes (bytesLen (takeBytes e l)) l = takeBytes e l := by
  induction l generalizing e with
  | nil => rfl
  | cons c r ih =>
    by_cases hc : charBytes c ≤ e
    · have h1 : charBytes c ≤ charBytes c + bytesLen (takeBytes (e - charBytes c) r) :=
        Nat.le_add_right _ _
      simp only [takeBytes, if_pos hc, bytesLen, if_pos h1, Nat.add_sub_cancel_left]
      exact congrArg (c :: ·) (ih (e - charBytes c))
    · have hpos := charBytes_pos c
      simp only [takeBytes, if_neg hc, bytesLen]
      rw [if_neg (by omega)]

/-- C9: for a body longer than 1500 bytes, the backward boundary search is
safe: byte index 0 is always a boundary, the found index is a boundary, lies
at or below 1500, and is in range of the body, so the slice cannot panic. -/
theorem c9_boundary_search (l : List Char) (_h : 1500 < bytesLen l) :
    boundAux l 0 = true ∧
    boundAux l (findEnd l 1500) = true ∧
    findEnd l 1500 ≤ 1500 ∧
    findEnd l 1500 ≤ bytesLen l :=
  ⟨boundAux_zero l, findEnd_bound l 1500, findEnd_le l 1500,
    bound_le_bytes l _ (findEnd_bound l 1500)⟩

set_option maxRecDepth 100000 in
/-- Witness for C9 at a 1501-byte ASCII body. -/
theorem c9_witness :
    1500 < bytesLen (List.replicate 1501 'a') ∧
    (boundAux (List.replicate 1501 'a') 0 = true ∧
      boundAux (List.replicate 1501 'a') (findEnd (List.replicate 1501 'a') 1500) = true ∧
      findEnd (List.replicate 1501 'a') 1500 ≤ 1500 ∧
      findEnd (List.replicate 1501 'a') 1500 ≤ bytesLen (List.replicate 1501 'a')) :=
  ⟨by decide, c9_boundary_search _ (by decide)⟩

set_option maxRecDepth 100000 in
/-- C7 counterexample: 376 four-byte emoji form a body of 376 characters —
well below the claimed 1500-character limit — yet the code truncates it,
because the threshold is measured in UTF-8 bytes (1504 here), not
characters. -/
theorem c7_counterexample :
    (List.replicate 376 (Char.ofNat 0x1F600)).length ≤ 1500 ∧
    display_body (List.replicate 376 (Char.ofNat 0x1F600)) ≠
      List.replicate 376 (Char.ofNat 0x1F600) := by
  exact ⟨by decide, by decide⟩

/-- C7 amended: the 1500 threshold is in UTF-8 bytes: a body of at most 1500
bytes is passed through unchanged; a longer body is cut to its longest
character-aligned prefix of at most 1500 bytes (so no multi-byte character
is split) followed by the marker. -/
theorem c7_truncation_bytes (l : List Char) :
    (bytesLen l ≤ 1500 → display_body l = l) ∧
    (1500 < bytesLen l →
      ∃ k, display_body l = l.take k ++ ('.' :: '.' :: '.' :: []) ∧
        bytesLen (l.take k) ≤ 1500 ∧
        ∀ j, j ≤ l.length → bytesLen (l.take j) ≤ 1500 → j ≤ k) := by
  constructor
  · intro h
    have hnot : ¬ 1500 < bytesLen l := by omega
    simp [display_body, hnot]
  · intro h
    refine ⟨(takeBytes 1500 l).length, ?_, ?_, ?_⟩
    · have hfe : findEnd l 1500 = bytesLen (takeBytes 1500 l) := by
        apply findEnd_spec
        · rw [bound_iff]
          exact ⟨(takeBytes 1500 l).length, tb_len_le 1500 l, by rw [← tb_take]⟩
        · exact tb_bytes_le 1500 l
        · intro v hv1 hv2
          by_contra hcontra
          have hcv : boundAux l v = true := by
            revert hcontra; cases boundAux l v <;> simp
          obtain ⟨j, hj, hbj⟩ := (bound_iff l v).mp hcv
          have hklen : (takeBytes 1500 l).length < l.length := by
            by_contra hge
            have heq : (takeBytes 1500 l).length = l.length := by
              have := tb_len_le 1500 l; omega
            have hall : takeBytes 1500 l = l := by
              rw [tb_take 1500 l, heq, List.take_length]
            have hble := tb_bytes_le 1500 l
            rw [hall] at hble
            omega
          rcases le_or_lt j ((takeBytes 1500 l).length) with hle2 | hlt2
          · have hmono := bl_take_mono l j (takeBytes 1500 l).length hle2
            rw [hbj, ← tb_take] at hmono
            omega
          · have hnext := tb_next_over 1500 l hklen
            have hmono := bl_take_mono l ((takeBytes 1500 l).length + 1) j (by omega)
            rw [hbj] at hmono
            omega
      show display_body l = _
      rw [display_body, if_pos h, hfe, tb_restrict, ← tb_take]
    · rw [← tb_take]
      exact tb_bytes_le 1500 l
    · intro j hj hbj
      exact tb_max 1500 l j hj hbj

/-- Witness for the amended C7: a short body passes unchanged. -/
theorem c7_witness :
    bytesLen ("hi".data) ≤ 1500 ∧ display_body ("hi".data) = "hi".data :=
  ⟨by decide, (c7_truncation_bytes ("hi".data)).1 (by decide)⟩

/-! ### Normalisation lemmas -/

theorem dw_headNot (p : Char → Bool) (t : List Char) : headNotSat p (t.dropWhile p) := by
  induction t with
  | nil => trivial
  | cons c r ih =>
    by_cases hc : p c = true
    · simpa [List.dropWhile_cons, hc] using ih
    · have hc2 : p c = false := by revert hc; cases p c <;> simp
      simp [List.dropWhile_cons, hc2, headNotSat]

theorem dw_self (p : Char → Bool) (t : List Char) (h : headNotSat p t) :
    t.dropWhile p = t := by
  cases t with
  | nil => rfl
  | cons c r =>
    have hc : p c = false := h
    simp [List.dropWhile_cons, hc]

theorem dw_suffix_ex (p : Char → Bool) (t : List Char) :
    ∃ u, t = u ++ t.dropWhile p := by
  induction t with
  | nil => exact ⟨[], rfl⟩
  | cons c r ih =>
    by_cases hc : p c = true
    · obtain ⟨u, hu⟩ := ih
      refine ⟨c :: u, ?_⟩
      simpa [List.dropWhile_cons, hc] using congrArg (c :: ·) hu
    · have hc2 : p c = false := by revert hc; cases p c <;> simp
      exact ⟨[], by simp [List.dropWhile_cons, hc2]⟩

theorem headNotSat_appL (p : Char → Bool) (a b : List Char)
    (h : headNotSat p (a ++ b)) (ha : a ≠ []) : headNotSat p a := by
  cases a with
  | nil => exact absurd rfl ha
  | cons c r => exact h

theorem isHT_ws (c : Char) (h : isHT c = true) : rustWS c = true := by
  simp only [isHT, Bool.or_eq_true, beq_iff_eq] at h
  rcases h with h | h <;> subst h <;> decide

theorem hns_mono (t : List Char) (h : headNotSat rustWS t) : headNotSat isHT t := by
  cases t with
  | nil => trivial
  | cons c r =>
    have hc : rustWS c = false := h
    show isHT c = false
    by_cases hcontr : isHT c = true
    · rw [isHT_ws c hcontr] at hc
      exact absurd hc (by decide)
    · revert hcontr; cases isHT c <;> simp

theorem okRev_tail (c : Char) (t : List Char) (h : okRev (c :: t) = true) :
    okRev t = true := by
  cases t with
  | nil => rfl
  | cons d rest =>
    simp only [okRev, Bool.and_eq_true] at h
    exact h.2

theorem okRev_cons_of (c : Char) (t : List Char) (h1 : okRev t = true)
    (h2 : c = '\n' → headNotSat isHT t) : okRev (c :: t) = true := by
  cases t with
  | nil => rfl
  | cons d rest =>
    simp only [okRev, Bool.and_eq_true]
    refine ⟨?_, h1⟩
    by_cases hc : c = '\n'
    · have hd : isHT d = false := h2 hc
      simp [hd]
    · simp [hc]

theorem okRev_appL (p q : List Char) (h : okRev (p ++ q) = true) : okRev p = true := by
  induction p with
  | nil => rfl
  | cons a p2 ih =>
    cases p2 with
    | nil => rfl
    | cons b p3 =>
      have hh := h
      simp only [List.cons_append, okRev, Bool.and_eq_true] at hh
      have ih2 := ih hh.2
      simp only [okRev, Bool.and_eq_true]
      exact ⟨hh.1, ih2⟩

theorem okRev_appR (p q : List Char) (h : okRev (p ++ q) = true) : okRev q = true := by
  induction p with
  | nil => exact h
  | cons a p2 ih => exact ih (okRev_tail _ _ h)

theorem sra_nl (skip : Bool) (rest : List Char) :
    stripRevAux skip ('\n' :: rest) = '\n' :: stripRevAux true rest := by
  simp [stripRevAux]

theorem sra_ht (c : Char) (rest : List Char) (hc : ¬ c = '\n') (hh : isHT c = true) :
    stripRevAux true (c :: rest) = stripRevAux true rest := by
  have hbeq : (c == '\n') = false := by simp [hc]
  simp [stripRevAux, hbeq, hh]

theorem sra_other (skip : Bool) (c : Char) (rest : List Char) (hc : ¬ c = '\n')
    (hh : (skip && isHT c) = false) :
    stripRevAux skip (c :: rest) = c :: stripRevAux false rest := by
  have hbeq : (c == '\n') = false := by simp [hc]
  simp [stripRevAux, hbeq, hh]

theorem sra_headNot (t : List Char) : headNotSat isHT (stripRevAux true t) := by
  induction t with
  | nil => trivial
  | cons c rest ih =>
    by_cases hc : c = '\n'
    · subst hc
      rw [sra_nl]
      show isHT '\n' = false
      decide
    · by_cases hh : isHT c = true
      · rw [sra_ht c rest hc hh]
        exact ih
      · have hh2 : isHT c = false := by revert hh; cases isHT c <;> simp
        rw [sra_other true c rest hc (by simp [hh2])]
        exact hh2

theorem sra_ok (t : List Char) : ∀ skip, okRev (stripRevAux skip t) = true := by
  induction t with
  | nil => intro _; rfl
  | cons c rest ih =>
    intro skip
    by_cases hc : c = '\n'
    · subst hc
      rw [sra_nl]
      exact okRev_cons_of _ _ (ih true) (fun _ => sra_headNot rest)
    · by_cases hh : (skip && isHT c) = true
      · have hsk : skip = true := by revert hh; cases skip <;> simp
        have hht : isHT c = true := by revert hh; cases isHT c <;> simp
        subst hsk
        rw [sra_ht c rest hc hht]
        exact ih true
      · have hh2 : (skip && isHT c) = false := by
          revert hh; cases (skip && isHT c) <;> simp
        rw [sra_other skip c rest hc hh2]
        exact okRev_cons_of _ _ (ih false) (fun hcc => absurd hcc hc)

theorem sra_fix (t : List Char) : ∀ skip, okRev t = true →
    (skip = true → headNotSat isHT t) → stripRevAux skip t = t := by
  induction t with
  | nil => intro _ _ _; rfl
  | cons c rest ih =>
    intro skip h1 h2
    by_cases hc : c = '\n'
    · subst hc
      rw [sra_nl]
      have hrest : okRev rest = true := okRev_tail _ _ h1
      have hhead : headNotSat isHT rest := by
        cases rest with
        | nil => trivial
        | cons d r2 =>
          simp only [okRev, Bool.and_eq_true] at h1
          have := h1.1
          show isHT d = false
          revert this
          cases isHT d <;> simp
      rw [ih true hrest (fun _ => hhead)]
    · have hnotht : (skip && isHT c) = false := by
        cases hsk : skip with
        | false => rfl
        | true =>
          have : isHT c = false := h2 hsk
          simp [this]
      rw [sra_other skip c rest hc hnotht]
      rw [ih false (okRev_tail _ _ h1) (by intro hcontr; cases hcontr)]

theorem stripT_fix_rev (u : List Char) (h : stripT u = u) :
    stripRevAux true u.reverse = u.reverse := by
  have h2 := congrArg List.reverse h
  simpa [stripT] using h2

theorem stripT_idem (t : List Char) : stripT (stripT t) = stripT t := by
  show (stripRevAux true (stripRevAux true t.reverse).reverse.reverse).reverse = _
  rw [List.reverse_reverse]
  rw [sra_fix _ true (sra_ok _ true) (fun _ => sra_headNot _)]
  rfl

theorem trim_pres_fix (u : List Char) (h : stripT u = u) :
    stripT (trimChars u) = trimChars u := by
  have hr : stripRevAux true u.reverse = u.reverse := stripT_fix_rev u h
  have hok : okRev u.reverse = true := by rw [← hr]; exact sra_ok _ true
  have hRrev : (trimChars u).reverse = ((u.dropWhile rustWS).reverse).dropWhile rustWS := by
    simp [trimChars]
  have hokW : okRev (u.dropWhile rustWS).reverse = true := by
    obtain ⟨q, hq⟩ := dw_suffix_ex rustWS u
    have hsplit : u.reverse = (u.dropWhile rustWS).reverse ++ q.reverse := by
      rw [hq, List.reverse_append]
      rw [← hq]
    exact okRev_appL _ _ (by rw [← hsplit]; exact hok)
  have hokR : okRev ((u.dropWhile rustWS).reverse.dropWhile rustWS) = true := by
    obtain ⟨q2, hq2⟩ := dw_suffix_ex rustWS ((u.dropWhile rustWS).reverse)
    exact okRev_appR q2 _ (by rw [← hq2]; exact hokW)
  have hhns : headNotSat isHT ((u.dropWhile rustWS).reverse.dropWhile rustWS) :=
    hns_mono _ (dw_headNot _ _)
  have hfix : stripRevAux true (trimChars u).reverse = (trimChars u).reverse := by
    rw [hRrev]
    exact sra_fix _ true hokR (fun _ => hhns)
  show (stripRevAux true (trimChars u).reverse).reverse = trimChars u
  rw [hfix, List.reverse_reverse]

theorem trim_idem (u : List Char) : trimChars (trimChars u) = trimChars u := by
  have h1 : (trimChars u).dropWhile rustWS = trimChars u := by
    apply dw_self
    obtain ⟨q, hq⟩ := dw_suffix_ex rustWS (u.dropWhile rustWS).reverse
    have hW : u.dropWhile rustWS =
        ((u.dropWhile rustWS).reverse.dropWhile rustWS).reverse ++ q.reverse := by
      have h3 := congrArg List.reverse hq
      simpa [List.reverse_append] using h3
    by_cases hnil : ((u.dropWhile rustWS).reverse.dropWhile rustWS).reverse = ([] : List Char)
    · show headNotSat rustWS (trimChars u)
      unfold trimChars
      rw [hnil]
      trivial
    · have hfull := dw_headNot rustWS u
      rw [hW] at hfull
      exact headNotSat_appL _ _ _ hfull hnil
  show (((trimChars u).dropWhile rustWS).reverse.dropWhile rustWS).reverse = trimChars u
  rw [h1]
  show ((((u.dropWhile rustWS).reverse.dropWhile rustWS).reverse).reverse.dropWhile
    rustWS).reverse = _
  rw [List.reverse_reverse]
  rw [dw_self _ _ (dw_headNot _ _)]
  rfl

theorem repl_snoc (k : Nat) (x : Char) (t : List Char) :
    List.replicate k x ++ x :: t = List.replicate (k + 1) x ++ t := by
  induction k with
  | zero => rfl
  | succ n ih =>
    show x :: (List.replicate n x ++ x :: t) = _
    rw [ih]
    simp [List.replicate_succ]

theorem nt_tail (c : Char) (t : List Char) (h : noTriple (c :: t) = true) :
    noTriple t = true := by
  simp only [noTriple, Bool.and_eq_true] at h
  exact h.2

theorem nt_drop (p t : List Char) (h : noTriple (p ++ t) = true) : noTriple t = true := by
  induction p with
  | nil => exact h
  | cons a p2 ih => exact ih (nt_tail _ _ h)

theorem collapse_fix (t : List Char) : ∀ k : Nat,
    noTriple (List.replicate (min k 2) '\n' ++ t) = true → collapseAux k t = t := by
  induction t with
  | nil => intro k _; rfl
  | cons c rest ih =>
    intro k hnt
    by_cases hc : c = '\n'
    · subst hc
      by_cases hk : 2 ≤ k
      · exfalso
        have hmin : min k 2 = 2 := by omega
        rw [hmin] at hnt
        simp +decide [List.replicate, noTriple, startsNN] at hnt
      · have hmin : min k 2 = k := by omega
        rw [hmin, repl_snoc] at hnt
        have hmin2 : min (k + 1) 2 = k + 1 := by omega
        have hrec : collapseAux (k + 1) rest = rest := by
          apply ih (k + 1)
          rw [hmin2]
          exact hnt
        simp +decide [collapseAux, hk, hrec]
    · have hnt2 : noTriple rest = true := nt_tail _ _ (nt_drop _ _ hnt)
      have hrec : collapseAux 0 rest = rest := by
        apply ih 0
        simpa using hnt2
      have hbeq : (c == '\n') = false := by simp [hc]
      simp [collapseAux, hbeq, hrec]

theorem cleanChars_idem (t : List Char) (h : noTriple (cleanChars t) = true) :
    cleanChars (cleanChars t) = cleanChars t := by
  have h1 : collapseAux 0 (cleanChars t) = cleanChars t := by
    apply collapse_fix (cleanChars t) 0
    simpa using h
  have h2 : stripT (cleanChars t) = cleanChars t := by
    show stripT (trimChars (stripT (collapseAux 0 t))) = _
    exact trim_pres_fix _ (stripT_idem _)
  show trimChars (stripT (collapseAux 0 (cleanChars t))) = cleanChars t
  rw [h1, h2]
  show trimChars (trimChars (stripT (collapseAux 0 t))) = _
  exact trim_idem _

/-- C6 counterexample: normalising can create a fresh triple-newline run —
stripping the blanks of `"a\n  \n  \nb"` leaves `"a\n\n\nb"`, which a
second normalisation pass collapses further, so normalisation is not
idempotent on its own outputs. -/
theorem c6_counterexample :
    clean_body "a\n  \n  \nb" = "a\n\n\nb" ∧
    clean_body (clean_body "a\n  \n  \nb") ≠ clean_body "a\n  \n  \nb" :=
  ⟨by decide, by decide⟩

/-- C6 amended: normalisation is idempotent on every output that contains no
run of three or more newlines (trailing-blank stripping can manufacture such
a run, which only a second pass collapses; on triple-free outputs a second
pass changes nothing). -/
theorem c6_norm_idem (s : String) (h : noTriple (clean_body s).data = true) :
    clean_body (clean_body s) = clean_body s := by
  show String.mk (cleanChars (clean_body s).data) = clean_body s
  have hdata : (clean_body s).data = cleanChars s.data := rfl
  rw [hdata] at h ⊢
  show String.mk (cleanChars (cleanChars s.data)) = String.mk (cleanChars s.data)
  rw [cleanChars_idem s.data h]

/-- Witness for the amended C6 on a triple-free normalised text. -/
theorem c6_witness :
    noTriple (clean_body "a\nb").data = true ∧
    clean_body (clean_body "a\nb") = clean_body "a\nb" :=
  ⟨by decide, c6_norm_idem "a\nb" (by decide)⟩

end Newsletter
